import Mathlib

/-!
Verification of the sphinx-lang interpreter specification against its source.

This file gives a shallow embedding of the parts of the code the claims are
about: the rule-driven lexer loop (src/lexer/lexer.rs), the keyword rule
(src/lexer/rules/keywords.rs), the debug symbol table
(src/debug/symbol/table.rs), the chunk builder and program loader
(src/codegen/chunk.rs), runtime values (src/runtime/variant.rs), the parse
driver (src/source.rs) and the REPL statement rewrite (src/bin/sphinx.rs).

Machine integers that matter for behaviour (the u16 constant-id limit) are
modelled as Nat with explicit bounds; Rust byte buffers are modelled as
List Nat; fallible operations return Except; panics are modelled as an
explicit error value of the Except.
-/

/- ===================== Lexer (src/lexer/lexer.rs) ===================== -/

/-- Match state of a lexer rule, from the LexerMatch enum used by
src/lexer/lexer.rs (called MatchResult in other lexer files). -/
inductive LexerMatch where
  | noMatch
  | incompleteMatch
  | completeMatch
deriving DecidableEq, Repr

/-- Tokens. Modelled from the spec: the Token enum lives in a lexer module
that is not part of the provided sources; the claims only need keyword
tokens, identifier tokens and EOF, each carrying the matched text. -/
inductive Token where
  | kword : List Char → Token
  | ident : List Char → Token
  | eof : Token
deriving DecidableEq, Repr

/-- A lexer rule object (dyn LexerRule). Modelled from the spec: a rule is a
state machine fed one character at a time; since the lexer resets every rule
at token start and always feeds a rule the characters consumed while it was
live, a rule's mutable state is determined by the list of characters fed to
it since the last reset. `result` gives the match state after feeding the
given characters, `tok` gives get_token in that state. -/
structure LexRule where
  result : List Char → LexerMatch
  tok : List Char → Option Token

/-- Span of a token or error, from struct Span in src/lexer/lexer.rs. -/
structure LexSpan where
  index : Nat
  length : Nat
deriving DecidableEq, Repr

/-- Output of a successful next_token call (struct TokenOut). -/
structure TokenOut where
  token : Token
  location : LexSpan
  lineno : Nat
deriving DecidableEq, Repr

/-- A lexer error (struct LexerError). -/
structure LexErr where
  message : String
  location : LexSpan
  lineno : Nat
deriving DecidableEq, Repr

/-- Mutable scanning state of the Lexer: the remaining source characters,
the `current` index (one ahead of the last consumed char) and the line
number. -/
structure LexState where
  source : List Char
  current : Nat
  lineno : Nat
deriving DecidableEq, Repr

/-- Lexer::current_span. -/
def currentSpan (st : LexState) (startIdx : Nat) : LexSpan :=
  if st.current > startIdx then
    { index := startIdx, length := st.current - startIdx }
  else
    { index := startIdx, length := 0 }

/-- Lexer::advance: increments `current` even at end of input, bumps the
line number on a newline, and yields the consumed character. -/
def lexAdvance (st : LexState) : Option Char × LexState :=
  match st.source with
  | [] => (none, { st with current := st.current + 1 })
  | c :: rest =>
    (some c,
      { source := rest
        current := st.current + 1
        lineno := if c = '\n' then st.lineno + 1 else st.lineno })

/-- Lexer::skip_whitespace. -/
def skipWhitespace (st : LexState) : LexState :=
  match h : st.source with
  | [] => st
  | c :: rest =>
    if c.isWhitespace then
      skipWhitespace
        { source := rest
          current := st.current + 1
          lineno := if c = '\n' then st.lineno + 1 else st.lineno }
    else st
termination_by st.source.length
decreasing_by simp [h]

/-- Match state of rule `i` after it has been fed the characters `fed`. -/
def ruleResultAt (rules : List LexRule) (fed : List Char) (i : Nat) : LexerMatch :=
  match rules.get? i with
  | some r => r.result fed
  | none => LexerMatch.noMatch

/-- get_token of rule `i` in the state reached by feeding `fed`. -/
def ruleTokenAt (rules : List LexRule) (fed : List Char) (i : Nat) : Option Token :=
  match rules.get? i with
  | some r => r.tok fed
  | none => none

/-- One round of the scan loop body: feed `next` to every rule index in
`active` (in order), extending each fed rule's state, and collect the
surviving indices (next_active) and the indices that reported a complete
match this round, in the push order of the source. `states.get i` is the
character list fed so far to rule `i`. -/
def feedRound (rules : List LexRule) (states : List (List Char)) (next : Char)
    (active : List Nat) : List (List Char) × List Nat × List Nat :=
  match active with
  | [] => (states, [], [])
  | i :: rest =>
    let fedI := states.getD i [] ++ [next]
    let states1 := states.set i fedI
    let res := ruleResultAt rules fedI i
    let (states2, nextActive, complete) := feedRound rules states1 next rest
    match res with
    | LexerMatch.completeMatch => (states2, i :: nextActive, i :: complete)
    | LexerMatch.incompleteMatch => (states2, i :: nextActive, complete)
    | LexerMatch.noMatch => (states2, nextActive, complete)

/-- Lexer::exhaust_rule: keep feeding characters to the single remaining
rule, peeking and advancing only when the rule does not reject, until the
rule stops reporting an incomplete match; then emit its token (the
get_token().unwrap() panic is modelled as an explicit error). -/
def exhaustRule (rules : List LexRule) (tokenStart : Nat)
    (states : List (List Char)) (st : LexState) (idx : Nat) :
    Except LexErr TokenOut :=
  match h : st.source with
  | [] =>
    match ruleTokenAt rules (states.getD idx []) idx with
    | some t => Except.ok ⟨t, currentSpan st tokenStart, st.lineno⟩
    | none => Except.error ⟨"panicked: get_token on None", currentSpan st tokenStart, st.lineno⟩
  | c :: rest =>
    let fedI := states.getD idx [] ++ [c]
    match ruleResultAt rules fedI idx with
    | LexerMatch.incompleteMatch =>
      exhaustRule rules tokenStart (states.set idx fedI)
        { source := rest
          current := st.current + 1
          lineno := if c = '\n' then st.lineno + 1 else st.lineno } idx
    | LexerMatch.completeMatch =>
      let st1 : LexState :=
        { source := rest
          current := st.current + 1
          lineno := if c = '\n' then st.lineno + 1 else st.lineno }
      match ruleTokenAt rules fedI idx with
      | some t => Except.ok ⟨t, currentSpan st1 tokenStart, st1.lineno⟩
      | none => Except.error ⟨"panicked: get_token on None", currentSpan st1 tokenStart, st1.lineno⟩
    | LexerMatch.noMatch =>
      match ruleTokenAt rules (states.getD idx []) idx with
      | some t => Except.ok ⟨t, currentSpan st tokenStart, st.lineno⟩
      | none => Except.error ⟨"panicked: get_token on None", currentSpan st tokenStart, st.lineno⟩
termination_by st.source.length
decreasing_by simp [h]

/-- The main scan loop of Lexer::next_token (the `loop` at lines 161-202 of
src/lexer/lexer.rs). `next` is the character just consumed, `st.source` the
characters not yet consumed, `active` the indices of live rules and
`complete` the accumulated list of complete-match reports from previous
rounds (the source never clears it). -/
def scanLoop (rules : List LexRule) (tokenStart : Nat)
    (states : List (List Char)) (next : Char) (st : LexState)
    (active complete : List Nat) : Except LexErr TokenOut :=
  let fr := feedRound rules states next active
  let states1 := fr.1
  let nextActive := fr.2.1
  let complete1 := complete ++ fr.2.2
  if nextActive.isEmpty then
    if complete1.isEmpty then
      Except.error ⟨"could not parse symbol", currentSpan st tokenStart, st.lineno⟩
    else if complete1.length > 1 then
      Except.error ⟨"ambiguous symbol", currentSpan st tokenStart, st.lineno⟩
    else
      match ruleTokenAt rules (states1.getD (complete1.headD 0) []) (complete1.headD 0) with
      | some t => Except.ok ⟨t, currentSpan st tokenStart, st.lineno⟩
      | none => Except.error ⟨"panicked: get_token on None", currentSpan st tokenStart, st.lineno⟩
  else if nextActive.length = 1 then
    exhaustRule rules tokenStart states1 st (nextActive.headD 0)
  else
    match h : st.source with
    | [] =>
      let st1 : LexState := { st with current := st.current + 1 }
      Except.error ⟨"unexpected EOF while parsing symbol", currentSpan st1 tokenStart, st1.lineno⟩
    | c :: rest =>
      scanLoop rules tokenStart states1 c
        { source := rest
          current := st.current + 1
          lineno := if c = '\n' then st.lineno + 1 else st.lineno }
        nextActive complete1
termination_by st.source.length
decreasing_by simp [h]

/-- Lexer::next_token: skip whitespace, reset all rules, emit EOF at end of
input, otherwise consume the first character and run the scan loop. -/
def nextToken (rules : List LexRule) (st : LexState) : Except LexErr TokenOut :=
  let st1 := skipWhitespace st
  let tokenStart := st1.current
  match st1.source with
  | [] =>
    let st2 : LexState := { st1 with current := st1.current + 1 }
    Except.ok ⟨Token.eof, currentSpan st2 tokenStart, st2.lineno⟩
  | c :: rest =>
    scanLoop rules tokenStart (List.replicate rules.length []) c
      { source := rest
        current := st1.current + 1
        lineno := if c = '\n' then st1.lineno + 1 else st1.lineno }
      (List.range rules.length) []

/- Concrete rules used as inputs to the lexer loop. -/

/-- True when `c` is alphanumeric or an underscore. Modelled from the spec:
the word-character predicate (is_word_alphanumeric) lives in a lexer module
that is not part of the provided sources. -/
def charIsWordAlphanumeric (c : Char) : Bool :=
  c.isAlphanum || c = '_'

/-- Match state of an exact-string matcher fed the characters `fed`.
Modelled from the spec: StrMatcher (src/lexer/rules/strmatcher.rs is not
part of the provided sources) matches one fixed string: a complete match on
exactly the target, an incomplete match on a shorter leading part of it, no
match otherwise. -/
def strMatchResult (target fed : List Char) : LexerMatch :=
  if fed = target then LexerMatch.completeMatch
  else if fed.length < target.length ∧ fed = target.take fed.length then
    LexerMatch.incompleteMatch
  else LexerMatch.noMatch

/-- A rule that matches exactly the string `target` (a MultiCharRule /
keyword-style rule without the word-boundary refinement, which the scan
loop cannot supply since it feeds rules single characters). -/
def kwRule (target : List Char) : LexRule :=
  { result := fun fed => strMatchResult target fed
    tok := fun fed =>
      if strMatchResult target fed = LexerMatch.completeMatch then
        some (Token.kword target)
      else none }

/-- An identifier-style rule. Modelled from the spec: identifiers are
maximal runs of word characters; the rule reports a complete match on every
word-character string and rejects anything else. -/
def wordRule : LexRule :=
  { result := fun fed =>
      if fed ≠ [] ∧ fed.all charIsWordAlphanumeric then LexerMatch.completeMatch
      else LexerMatch.noMatch
    tok := fun fed =>
      if fed ≠ [] ∧ fed.all charIsWordAlphanumeric then some (Token.ident fed)
      else none }

/- ============== Keyword rule (src/lexer/rules/keywords.rs) ============== -/

/-- State of a StrMatcher. Modelled from the spec: StrMatcher
(src/lexer/rules/strmatcher.rs is not part of the provided sources) matches
a fixed target string character by character; `count` is the number of
characters matched so far and `lastResult` the result of the last feed. -/
structure StrMatcher where
  target : List Char
  count : Nat
  lastResult : LexerMatch
deriving DecidableEq, Repr

/-- A fresh StrMatcher for `target` (StrMatcher::new / reset). -/
def strMatcherNew (target : List Char) : StrMatcher :=
  { target := target, count := 0, lastResult := LexerMatch.incompleteMatch }

/-- StrMatcher::try_match. Modelled from the spec: accept `next` when it is
the next character of the target and the matcher has not already failed;
report a complete match once the whole target is consumed. -/
def strTryMatch (m : StrMatcher) (next : Char) : StrMatcher × LexerMatch :=
  if m.lastResult ≠ LexerMatch.noMatch ∧ m.target.get? m.count = some next then
    let count1 := m.count + 1
    let res :=
      if count1 = m.target.length then LexerMatch.completeMatch
      else LexerMatch.incompleteMatch
    ({ m with count := count1, lastResult := res }, res)
  else
    ({ m with lastResult := LexerMatch.noMatch }, LexerMatch.noMatch)

/-- struct KeywordRule: a token to produce and a string matcher. -/
structure KeywordRule where
  result : Token
  matcher : StrMatcher
deriving DecidableEq, Repr

/-- KeywordRule::try_match: on the first character (count == 0) require the
preceding character to be a word boundary (missing, or not
alphanumeric/underscore), returning no-match without feeding the matcher
otherwise; then defer to the string matcher. -/
def keywordTryMatch (rule : KeywordRule) (prev : Option Char) (next : Char) :
    KeywordRule × LexerMatch :=
  if rule.matcher.count = 0 then
    let atWordBoundary : Bool :=
      match prev with
      | some ch => !charIsWordAlphanumeric ch
      | none => true
    if !atWordBoundary then (rule, LexerMatch.noMatch)
    else
      let p := strTryMatch rule.matcher next
      ({ rule with matcher := p.1 }, p.2)
  else
    let p := strTryMatch rule.matcher next
    ({ rule with matcher := p.1 }, p.2)

/-- KeywordRule::get_token: the keyword token only in a complete-match state. -/
def keywordGetToken (rule : KeywordRule) : Option Token :=
  if rule.matcher.lastResult = LexerMatch.completeMatch then some rule.result
  else none

/- ============ Debug symbol table (src/debug/symbol/table.rs) ============ -/

/-- A debug symbol. Modelled from the spec: a source-span pair of start and
end indices (src/debug/symbol/mod.rs is not part of the provided sources). -/
structure DebugSymbol where
  start : Nat
  stop : Nat
deriving DecidableEq, Repr

/-- struct SymbolTableEntry(usize, Option<DebugSymbol>); its Ord compares
only the offset. -/
abbrev SymbolTableEntry := Nat × Option DebugSymbol

/-- struct DebugSymbolTable. -/
structure DebugSymbolTable where
  entries : List SymbolTableEntry
deriving DecidableEq, Repr

/-- DebugSymbolTable::new. -/
def DebugSymbolTable.new : DebugSymbolTable := ⟨[]⟩

/-- DebugSymbolTable::insert: panics ("symbol inserted out of order",
modelled as the error case) unless the new offset is strictly greater than
the last stored offset; otherwise pushes the entry. -/
def DebugSymbolTable.insert (t : DebugSymbolTable) (offset : Nat)
    (symbol : Option DebugSymbol) : Except String DebugSymbolTable :=
  match t.entries.getLast? with
  | some lastEntry =>
    if offset ≤ lastEntry.1 then Except.error "symbol inserted out of order"
    else Except.ok ⟨t.entries ++ [(offset, symbol)]⟩
  | none => Except.ok ⟨t.entries ++ [(offset, symbol)]⟩

/-- The loop of Rust's slice::binary_search_by_key, searching
`entries[left..right]` for an entry whose offset equals `key`. -/
def binSearchGo (entries : List SymbolTableEntry) (key : Nat)
    (left right : Nat) : Option Nat :=
  if hlr : left < right then
    match entries.get? (left + (right - left) / 2) with
    | none => none
    | some e =>
      if e.1 < key then binSearchGo entries key (left + (right - left) / 2 + 1) right
      else if key < e.1 then binSearchGo entries key left (left + (right - left) / 2)
      else some (left + (right - left) / 2)
  else none
termination_by right - left
decreasing_by
  · have := Nat.div_lt_self (Nat.sub_pos_of_lt hlr) (by norm_num : 1 < 2)
    omega
  · have := Nat.div_lt_self (Nat.sub_pos_of_lt hlr) (by norm_num : 1 < 2)
    omega

/-- slice::binary_search_by_key over the whole entries list. -/
def binSearch (entries : List SymbolTableEntry) (key : Nat) : Option Nat :=
  binSearchGo entries key 0 entries.length

/-- DebugSymbolTable::lookup: binary search by offset, then return the
found entry's symbol. -/
def DebugSymbolTable.lookup (t : DebugSymbolTable) (offset : Nat) :
    Option DebugSymbol :=
  match binSearch t.entries offset with
  | some index => (t.entries.getD index (0, none)).2
  | none => none

/-- Runs a sequence of inserts from the empty table, propagating the
out-of-order panic. -/
def insertAll (inserts : List SymbolTableEntry) : Except String DebugSymbolTable :=
  inserts.foldlM (fun t p => t.insert p.1 p.2) DebugSymbolTable.new

/- ========= Constants and chunk builder (src/codegen/chunk.rs) ========= -/

/-- enum Constant: integers, floats as their little-endian byte image,
build-local string-pool indices, and function references (chunk id plus
function id). Bytes are modelled as Nat. -/
inductive Constant where
  | integer : Int → Constant
  | float : List Nat → Constant
  | string : Nat → Constant
  | function : Nat → Nat → Constant
deriving DecidableEq, Repr

/-- A function signature. Modelled from the spec: name and arity data
(src/runtime/types/function/signature.rs is not part of the provided
sources); the claims only carry signatures through build and load. -/
structure Signature where
  name : Nat
deriving DecidableEq, Repr

/-- struct ChunkBuf: a bytecode buffer plus an optional debug symbol. -/
structure ChunkBuf where
  bytes : List Nat
  symbol : Option DebugSymbol
deriving DecidableEq, Repr

/-- struct ChunkBuilder. The build-local string interner is modelled from
the spec (the string_interner crate is external): symbols are dense indices
into the list of interned byte strings. The dedup map is modelled as an
association list. -/
structure ChunkBuilder where
  chunks : List ChunkBuf
  consts : List Constant
  functions : List Signature
  dedup : List (Constant × Nat)
  strings : List (List Nat)
deriving DecidableEq, Repr

/-- HashMap::get on the dedup map. -/
def dedupGet (dedup : List (Constant × Nat)) (value : Constant) : Option Nat :=
  match dedup.find? (fun p => p.1 = value) with
  | some p => some p.2
  | none => none

/-- A compile error kind (src/codegen/errors.rs is not part of the provided
sources; modelled from the spec's closed enumeration). -/
inductive CompileErrorKind where
  | constPoolLimit
  | chunkCountLimit
deriving DecidableEq, Repr

/-- ChunkBuilder::get_or_insert_const: return the deduplicated id if the
constant is already in the pool; otherwise the fresh id is the current pool
length, which must fit in a u16 (ConstID::try_from fails once the pool
holds 2^16 constants). -/
def getOrInsertConst (b : ChunkBuilder) (value : Constant) :
    Except CompileErrorKind (Nat × ChunkBuilder) :=
  match dedupGet b.dedup value with
  | some cid => Except.ok (cid, b)
  | none =>
    if b.consts.length ≥ 65536 then Except.error CompileErrorKind.constPoolLimit
    else
      Except.ok (b.consts.length,
        { b with
            consts := b.consts ++ [value]
            dedup := b.dedup ++ [(value, b.consts.length)] })

/-- struct ChunkIndex: a chunk's range in the program byte buffer. -/
structure ChunkIndex where
  offset : Nat
  length : Nat
  symbol : Option DebugSymbol
deriving DecidableEq, Repr

/-- struct StringIndex: a string's range in the program byte buffer.
Default is offset 0, length 0. -/
structure StringIndex where
  offset : Nat
  length : Nat
deriving DecidableEq, Repr, Inhabited

/-- The Default of StringIndex is the zero descriptor. -/
theorem stringIndex_default : (default : StringIndex) = ⟨0, 0⟩ := rfl

/-- struct UnloadedProgram. -/
structure UnloadedProgram where
  bytes : List Nat
  chunks : List ChunkIndex
  strings : List StringIndex
  consts : List Constant
  functions : List Signature
deriving DecidableEq, Repr

/-- Vec::insert at position `i`: shifts everything at and after `i` to the
right (it does not overwrite). -/
def vecInsert (l : List α) (i : Nat) (a : α) : List α :=
  l.take i ++ a :: l.drop i

/-- ChunkBuilder::build: concatenate the chunk buffers into one byte
buffer recording chunk indices, then resize the string table to the
interner's length filled with defaults and, for each interned string in
symbol order, append its bytes to the buffer and Vec::insert its index at
the symbol's position. -/
def ChunkBuilder.build (b : ChunkBuilder) : UnloadedProgram :=
  let chunkFold :=
    b.chunks.foldl
      (fun (p : List Nat × List ChunkIndex) chunk =>
        (p.1 ++ chunk.bytes, p.2 ++ [⟨p.1.length, chunk.bytes.length, chunk.symbol⟩]))
      ([], [])
  let stringTable0 : List StringIndex := List.replicate b.strings.length default
  let stringFold :=
    b.strings.enum.foldl
      (fun (p : List Nat × List StringIndex) sp =>
        (p.1 ++ sp.2, vecInsert p.2 sp.1 ⟨p.1.length, sp.2.length⟩))
      (chunkFold.1, stringTable0)
  { bytes := stringFold.1
    chunks := chunkFold.2
    strings := stringFold.2
    consts := b.consts
    functions := b.functions }

/-- UnloadedProgram::string: the byte slice of string descriptor `index`. -/
def UnloadedProgram.string (p : UnloadedProgram) (index : Nat) : List Nat :=
  let si := p.strings.getD index default
  (p.bytes.drop si.offset).take si.length

/-- The process-wide string table. Modelled from the spec: a global interner
whose symbols are dense indices, get_or_intern returning the existing symbol
for an already-interned string and appending otherwise. -/
def internGetOrIntern (g : List (List Nat)) (s : List Nat) :
    List (List Nat) × Nat :=
  match g.findIdx? (fun t => t = s) with
  | some i => (g, i)
  | none => (g ++ [s], g.length)

/-- struct Program: a loaded program whose strings are global symbols. -/
structure LoadedProgram where
  bytes : List Nat
  chunks : List ChunkIndex
  consts : List Constant
  functions : List Signature
  strings : List Nat
deriving DecidableEq, Repr

/-- Program::load: re-intern every string of the string-descriptor table
into the global table (in table order), build the parallel array of global
symbols, and truncate the byte buffer to just the bytecode bytes. Returns
the new global table along with the program. -/
def programLoad (g : List (List Nat)) (p : UnloadedProgram) :
    List (List Nat) × LoadedProgram :=
  let strFold :=
    p.strings.foldl
      (fun (acc : List (List Nat) × List Nat) si =>
        let s := (p.bytes.drop si.offset).take si.length
        let r := internGetOrIntern acc.1 s
        (r.1, acc.2 ++ [r.2]))
      (g, [])
  let byteLen := (p.chunks.map (fun c => c.length)).sum
  (strFold.1,
    { bytes := p.bytes.take byteLen
      chunks := p.chunks
      consts := p.consts
      functions := p.functions
      strings := strFold.2 })

/- ============== Runtime values (src/runtime/variant.rs) ============== -/

/-- enum Variant. Float payloads are opaque to every claim considered here
and are modelled as an uninterpreted bit pattern; strings are global
interned symbols; tuples are lists of variants. -/
inductive Variant where
  | nil
  | emptyTuple
  | boolTrue
  | boolFalse
  | integer : Int → Variant
  | float : Nat → Variant
  | string : Nat → Variant
  | tuple : List Variant → Variant

mutual

/-- Variant::can_hash: floats cannot hash; a tuple hashes when all its
items hash; everything else hashes. -/
def canHash : Variant → Bool
  | Variant.float _ => false
  | Variant.tuple items => canHashList items
  | _ => true

/-- iter().all(can_hash) over a tuple's items. -/
def canHashList : List Variant → Bool
  | [] => true
  | v :: vs => canHash v && canHashList vs

end

mutual

/-- Restatement of the claim's failure condition: the value is a float, or
a tuple that transitively contains a float. -/
def containsFloat : Variant → Bool
  | Variant.float _ => true
  | Variant.tuple items => containsFloatList items
  | _ => false

/-- Some item of the list transitively contains a float. -/
def containsFloatList : List Variant → Bool
  | [] => false
  | v :: vs => containsFloat v || containsFloatList vs

end

/-- Runtime error kinds touched by the claims (src/runtime/errors.rs). -/
inductive RuntimeErrorKind where
  | unhashableValue : Variant → RuntimeErrorKind

/-- TryFrom<&Variant> for VariantKey: fails with UnhashableValue exactly
when can_hash is false. A VariantKey is modelled as the borrowed variant. -/
def variantKeyTryFrom (value : Variant) : Except RuntimeErrorKind Variant :=
  if canHash value then Except.ok value
  else Except.error (RuntimeErrorKind.unhashableValue value)

mutual

/-- The Display implementation of Variant, with fuel counting one budget
unit per nested formatting call. Strings resolve through the global table
via `resolve`; the catch-all arm of the source formats `self` with the
Display trait again, a recursive call on the very same value, which the
fuel makes visible as non-termination (none for every fuel; the catch-all
is expanded into one arm per remaining constructor). The tuple arm writes
an open paren, each leading item followed by a comma-space, then the last
item and a close paren; split_last().unwrap() on an empty tuple payload is
a panic, also modelled as none. -/
def displayFmt (resolve : Nat → List Char) : Nat → Variant → Option (List Char)
  | 0, _ => none
  | _ + 1, Variant.string s => some (resolve s)
  | fuel + 1, Variant.tuple items =>
    match items.getLast? with
    | none => none
    | some lastV =>
      match displayParts resolve fuel items.dropLast, displayFmt resolve fuel lastV with
      | some parts, some lastS => some ('(' :: (parts ++ lastS ++ [')']))
      | _, _ => none
  | fuel + 1, Variant.nil => displayFmt resolve fuel Variant.nil
  | fuel + 1, Variant.emptyTuple => displayFmt resolve fuel Variant.emptyTuple
  | fuel + 1, Variant.boolTrue => displayFmt resolve fuel Variant.boolTrue
  | fuel + 1, Variant.boolFalse => displayFmt resolve fuel Variant.boolFalse
  | fuel + 1, Variant.integer n => displayFmt resolve fuel (Variant.integer n)
  | fuel + 1, Variant.float f => displayFmt resolve fuel (Variant.float f)
termination_by fuel _ => (2 * fuel, 0)

/-- Formats the leading tuple items, each followed by a comma and space. -/
def displayParts (resolve : Nat → List Char) : Nat → List Variant → Option (List Char)
  | _, [] => some []
  | fuel, v :: vs =>
    match displayFmt resolve fuel v, displayParts resolve fuel vs with
    | some s, some rest => some (s ++ [',', ' '] ++ rest)
    | _, _ => none
termination_by fuel l => (2 * fuel + 1, l.length)

end

/- ================= Parse driver (src/source.rs) ================= -/

/-- A parser error. Modelled from the spec: the claim treats parser errors
as opaque items of the parser's output stream. -/
structure ParserError where
  kind : Nat
deriving DecidableEq, Repr

/-- Statements. Modelled from the spec: the statement kinds of the AST;
only expression statements are distinguished by the claims, the remaining
kinds carry opaque payloads. Expressions are opaque payloads. -/
inductive Stmt where
  | expression : Nat → Stmt
  | echo : Nat → Stmt
  | declaration : Nat → Stmt
  | assignment : Nat → Stmt
  | block : Nat → Stmt
  | other : Nat → Stmt
deriving DecidableEq, Repr

/-- A statement with its debug symbol (struct StmtMeta). -/
structure StmtMeta where
  stmt : Stmt
  symbol : Option DebugSymbol
deriving DecidableEq, Repr

/-- True when the parser output item is an error. -/
def parseItemIsErr (r : Except ParserError StmtMeta) : Bool :=
  match r with
  | Except.error _ => true
  | Except.ok _ => false

/-- Projects the error payload of a parser output item. -/
def parseItemErr (r : Except ParserError StmtMeta) : Option ParserError :=
  match r with
  | Except.error e => some e
  | Except.ok _ => none

/-- Projects the statement payload of a parser output item. -/
def parseItemOk (r : Except ParserError StmtMeta) : Option StmtMeta :=
  match r with
  | Except.error _ => none
  | Except.ok s => some s

/-- ParseContext::parse_ast over the collected parser output: all errors if
any item errored, otherwise all statements. -/
def parseAst (output : List (Except ParserError StmtMeta)) :
    Except (List ParserError) (List StmtMeta) :=
  if output.any parseItemIsErr then
    Except.error (output.filterMap parseItemErr)
  else
    Except.ok (output.filterMap parseItemOk)

/- ============== REPL statement rewrite (src/bin/sphinx.rs) ============== -/

/-- The REPL's pre-execution rewrite (Repl::run, the block commented "if
the last stmt is an expression statement, convert it into an inspect"):
pop the last statement if any, replace an expression statement by an echo
of the same expression keeping its debug symbol, and push it back. -/
def replAstRewrite (ast : List StmtMeta) : List StmtMeta :=
  match ast.getLast? with
  | none => ast
  | some lastStmt =>
    let rewritten :=
      match lastStmt.stmt with
      | Stmt.expression e => Stmt.echo e
      | s => s
    ast.dropLast ++ [⟨rewritten, lastStmt.symbol⟩]

/- ============================ Theorems ============================ -/

/-- C2: the claim says that when the live rule set becomes empty the lexer
decides using only the complete-match reports of the most recent round of
feeding (as the source's own comment states). The code instead accumulates
the complete list across all rounds without clearing it, so a single rule
that completed in two earlier rounds is counted twice: on the input "ab."
with a word-character rule and an exact rule for "ab!", the final round
completes nothing (the claim requires the error "could not parse symbol"),
yet next_token reports "ambiguous symbol" from the two stale
complete-match entries of the word rule. -/
theorem lexer_next_token_stale_complete_eval :
    nextToken [wordRule, kwRule ['a', 'b', '!']] ⟨['a', 'b', '.'], 0, 1⟩ =
      Except.error ⟨"ambiguous symbol", ⟨0, 3⟩, 1⟩ ∧
    (feedRound [wordRule, kwRule ['a', 'b', '!']]
        [['a', 'b'], ['a', 'b']] '.' [0, 1]).2.2 = [] := by
  constructor
  · simp [nextToken, skipWhitespace, scanLoop, feedRound, exhaustRule,
      ruleResultAt, ruleTokenAt, wordRule, kwRule, strMatchResult,
      charIsWordAlphanumeric, currentSpan]
  · simp [feedRound, ruleResultAt, wordRule, kwRule, strMatchResult,
      charIsWordAlphanumeric]

/-- C10: whenever a round of feeding leaves two or more rules live and the
input is exhausted, the scan loop of next_token fails with "unexpected EOF
while parsing symbol" (the failed advance still bumps the current index),
regardless of any complete matches already reported by the surviving
rules. -/
theorem lexer_unexpected_eof_with_live_rules
    (rules : List LexRule) (tokenStart : Nat) (states : List (List Char))
    (next : Char) (cur ln : Nat) (active complete : List Nat)
    (hlive : 2 ≤ (feedRound rules states next active).2.1.length) :
    scanLoop rules tokenStart states next ⟨[], cur, ln⟩ active complete =
      Except.error ⟨"unexpected EOF while parsing symbol",
        currentSpan ⟨[], cur + 1, ln⟩ tokenStart, ln⟩ := by
  rw [scanLoop]
  have hne : (feedRound rules states next active).2.1.isEmpty = false := by
    rcases h : (feedRound rules states next active).2.1 with _ | ⟨a, t⟩
    · rw [h] at hlive; simp at hlive
    · simp
  have hlen : (feedRound rules states next active).2.1.length ≠ 1 := by omega
  simp [hne, hlen]

/-- Witness for C10: with the word rule and an exact rule for "ab!" both
still live after consuming the single character 'a' (the word rule having
already reported a complete match), reaching end of input produces the
unexpected-EOF error. -/
theorem lexer_unexpected_eof_with_live_rules_witness :
    2 ≤ (feedRound [wordRule, kwRule ['a', 'b', '!']]
          [[], []] 'a' [0, 1]).2.1.length ∧
    (feedRound [wordRule, kwRule ['a', 'b', '!']]
          [[], []] 'a' [0, 1]).2.2 = [0] ∧
    scanLoop [wordRule, kwRule ['a', 'b', '!']] 0 [[], []] 'a' ⟨[], 1, 1⟩ [0, 1] [] =
      Except.error ⟨"unexpected EOF while parsing symbol",
        currentSpan ⟨[], 2, 1⟩ 0, 1⟩ := by
  refine ⟨?_, ?_, lexer_unexpected_eof_with_live_rules _ _ _ _ _ _ _ _ ?_⟩
  · simp [feedRound, ruleResultAt, wordRule, kwRule, strMatchResult,
      charIsWordAlphanumeric]
  · simp [feedRound, ruleResultAt, wordRule, kwRule, strMatchResult,
      charIsWordAlphanumeric]
  · simp [feedRound, ruleResultAt, wordRule, kwRule, strMatchResult,
      charIsWordAlphanumeric]

/-- C7: on the first character of a token (matcher count zero), a keyword
rule reports no-match whenever the preceding character is alphanumeric or
an underscore, and otherwise (no preceding character, or a non-word one)
defers to its string matcher; consequently a keyword followed by a word
character lexes as an identifier, not as the keyword, as the concrete run
of the lexer on "andx" with the keyword rule for "and" and the identifier
rule shows. -/
theorem keyword_rule_word_boundary
    (rule : KeywordRule) (prev : Option Char) (next : Char)
    (hcount : rule.matcher.count = 0) :
    (∀ c, prev = some c → charIsWordAlphanumeric c = true →
        keywordTryMatch rule prev next = (rule, LexerMatch.noMatch)) ∧
    ((prev = none ∨ ∃ c, prev = some c ∧ charIsWordAlphanumeric c = false) →
        keywordTryMatch rule prev next =
          ({ rule with matcher := (strTryMatch rule.matcher next).1 },
            (strTryMatch rule.matcher next).2)) ∧
    nextToken [kwRule ['a', 'n', 'd'], wordRule] ⟨['a', 'n', 'd', 'x'], 0, 1⟩ =
      Except.ok ⟨Token.ident ['a', 'n', 'd', 'x'], ⟨0, 4⟩, 1⟩ := by
  refine ⟨?_, ?_, ?_⟩
  · intro c hc hword
    subst hc
    simp [keywordTryMatch, hcount, hword]
  · rintro (hnone | ⟨c, hc, hword⟩)
    · subst hnone
      simp [keywordTryMatch, hcount]
    · subst hc
      simp [keywordTryMatch, hcount, hword]
  · simp [nextToken, skipWhitespace, scanLoop, feedRound, exhaustRule,
      ruleResultAt, ruleTokenAt, wordRule, kwRule, strMatchResult,
      charIsWordAlphanumeric, currentSpan]

/-- Witness for C7: the keyword rule for "and" with a fresh matcher rejects
the keyword when the previous character is the word character 'x', and
accepts the first character after the non-word character '('. -/
theorem keyword_rule_word_boundary_witness :
    keywordTryMatch ⟨Token.kword ['a', 'n', 'd'], strMatcherNew ['a', 'n', 'd']⟩
        (some 'x') 'a' =
      (⟨Token.kword ['a', 'n', 'd'], strMatcherNew ['a', 'n', 'd']⟩, LexerMatch.noMatch) ∧
    keywordTryMatch ⟨Token.kword ['a', 'n', 'd'], strMatcherNew ['a', 'n', 'd']⟩
        (some '(') 'a' =
      (⟨Token.kword ['a', 'n', 'd'],
          (strTryMatch (strMatcherNew ['a', 'n', 'd']) 'a').1⟩,
        (strTryMatch (strMatcherNew ['a', 'n', 'd']) 'a').2) := by
  constructor
  · exact (keyword_rule_word_boundary _ _ _ rfl).1 'x' rfl (by decide)
  · exact (keyword_rule_word_boundary _ _ _ rfl).2.1 (Or.inr ⟨'(', rfl, by decide⟩)

/-- C9: the claim says Display of a Variant terminates, yielding "nil" for
Nil and the decimal representation for integers. The Display
implementation's catch-all arm formats the same value with Display again,
so for Nil, integers, booleans, the empty tuple and floats it recurses
forever (the author evidently intended the Debug implementation, which
does print "nil" and decimal integers): no amount of fuel produces any
output. -/
theorem variant_display_diverges (resolve : Nat → List Char) (n : Int) :
    ∀ fuel,
      displayFmt resolve fuel Variant.nil = none ∧
      displayFmt resolve fuel (Variant.integer n) = none := by
  intro fuel
  induction fuel with
  | zero => exact ⟨by simp [displayFmt], by simp [displayFmt]⟩
  | succ k ih =>
    refine ⟨?_, ?_⟩
    · rw [displayFmt]; exact ih.1
    · rw [displayFmt]; exact ih.2

/-- The REPL rewrite on a list with an explicit final expression statement. -/
theorem replAstRewrite_concat_expr (l : List StmtMeta) (e : Nat)
    (sym : Option DebugSymbol) :
    replAstRewrite (l ++ [⟨Stmt.expression e, sym⟩]) = l ++ [⟨Stmt.echo e, sym⟩] := by
  rw [replAstRewrite]
  simp [List.getLast?_concat, List.dropLast_concat]

/-- The REPL rewrite on a list with an explicit non-expression final
statement. -/
theorem replAstRewrite_concat_nonexpr (l : List StmtMeta) (x : StmtMeta)
    (hx : ∀ e, x.stmt ≠ Stmt.expression e) :
    replAstRewrite (l ++ [x]) = l ++ [x] := by
  obtain ⟨xs, xsym⟩ := x
  rw [replAstRewrite]
  cases xs with
  | expression e => exact absurd rfl (hx e)
  | echo e => simp [List.getLast?_concat, List.dropLast_concat]
  | declaration d => simp [List.getLast?_concat, List.dropLast_concat]
  | assignment a => simp [List.getLast?_concat, List.dropLast_concat]
  | block b => simp [List.getLast?_concat, List.dropLast_concat]
  | other o => simp [List.getLast?_concat, List.dropLast_concat]

/-- C8: on a non-empty statement list the REPL rewrite keeps the length,
leaves every statement but the last unchanged, replaces a final expression
statement by an echo of the same expression under the same debug symbol,
and leaves a non-expression final statement unchanged. -/
theorem repl_rewrite_final_expression (ast : List StmtMeta) (hne : ast ≠ []) :
    (replAstRewrite ast).length = ast.length ∧
    (replAstRewrite ast).dropLast = ast.dropLast ∧
    (∀ e sym, ast.getLast? = some ⟨Stmt.expression e, sym⟩ →
        (replAstRewrite ast).getLast? = some ⟨Stmt.echo e, sym⟩) ∧
    (∀ lastStmt, ast.getLast? = some lastStmt →
        (∀ e, lastStmt.stmt ≠ Stmt.expression e) →
        (replAstRewrite ast).getLast? = some lastStmt) := by
  rcases h : ast.getLast? with _ | ⟨ls, lsym⟩
  · exact absurd (List.getLast?_eq_none_iff.mp h) hne
  · have hsplit : ast.dropLast ++ [(⟨ls, lsym⟩ : StmtMeta)] = ast :=
      List.dropLast_append_getLast? _ h
    by_cases hex : ∃ e, ls = Stmt.expression e
    · obtain ⟨e, rfl⟩ := hex
      have hrw : replAstRewrite ast = ast.dropLast ++ [⟨Stmt.echo e, lsym⟩] := by
        conv_lhs => rw [← hsplit]
        exact replAstRewrite_concat_expr _ _ _
      refine ⟨?_, ?_, ?_, ?_⟩
      · rw [hrw]
        conv_rhs => rw [← hsplit]
        simp
      · rw [hrw]
        conv_rhs => rw [← hsplit]
        simp [List.dropLast_concat]
      · intro e' sym' hlast
        simp only [Option.some.injEq, StmtMeta.mk.injEq, Stmt.expression.injEq] at hlast
        obtain ⟨h1, h2⟩ := hlast
        subst h1
        subst h2
        rw [hrw]
        simp [List.getLast?_concat]
      · intro lst hlast hnexpr
        have hl : (⟨Stmt.expression e, lsym⟩ : StmtMeta) = lst := Option.some.inj hlast
        exact absurd (congrArg StmtMeta.stmt hl).symm (hnexpr e)
    · have hnx : ∀ e, (⟨ls, lsym⟩ : StmtMeta).stmt ≠ Stmt.expression e := by
        intro e hc
        exact hex ⟨e, hc⟩
      have hrw : replAstRewrite ast = ast := by
        conv_lhs => rw [← hsplit]
        rw [replAstRewrite_concat_nonexpr _ _ hnx]
        exact hsplit
      refine ⟨by rw [hrw], by rw [hrw], ?_, ?_⟩
      · intro e sym hlast
        have hl := Option.some.inj hlast
        exact absurd (congrArg StmtMeta.stmt hl) (hnx e)
      · intro lst hlast _
        rw [hrw, h]
        exact hlast

/-- Witness for C8: a two-statement list ending in an expression statement
has its final statement rewritten to an echo with the same symbol. -/
theorem repl_rewrite_final_expression_witness :
    (replAstRewrite
        [⟨Stmt.declaration 0, none⟩, ⟨Stmt.expression 7, some ⟨1, 2⟩⟩]).getLast? =
      some ⟨Stmt.echo 7, some ⟨1, 2⟩⟩ :=
  (repl_rewrite_final_expression _ (by simp)).2.2.1 7 (some ⟨1, 2⟩) rfl

/-- When no item of the parser output is an error, the output is exactly
the successfully parsed statements in order. -/
theorem parse_output_all_ok (output : List (Except ParserError StmtMeta))
    (h : output.any parseItemIsErr = false) :
    output = (output.filterMap parseItemOk).map Except.ok := by
  induction output with
  | nil => rfl
  | cons r t ih =>
    rcases r with e | s
    · simp [parseItemIsErr] at h
    · rw [List.any_cons] at h
      simp only [parseItemIsErr] at h
      rw [Bool.false_or] at h
      simp only [List.filterMap_cons, parseItemOk, List.map_cons]
      exact congrArg (List.cons (Except.ok s)) (ih h)

/-- When some item of the parser output is an error, the collected error
list is non-empty. -/
theorem parse_output_err_ne (output : List (Except ParserError StmtMeta))
    (h : output.any parseItemIsErr = true) :
    output.filterMap parseItemErr ≠ [] := by
  induction output with
  | nil => simp at h
  | cons r t ih =>
    rcases r with e | s
    · simp [List.filterMap_cons, parseItemErr]
    · rw [List.any_cons] at h
      simp only [parseItemIsErr] at h
      rw [Bool.false_or] at h
      simpa [List.filterMap_cons, parseItemErr] using ih h

/-- C6: parse_ast returns Ok with the list of all successfully parsed
statements, in order, exactly when no item of the pass errored (the output
then being those statements), and otherwise returns Err with the list of
all errors of the pass, in order and never empty; it never mixes the two
or drops an error. -/
theorem parse_ast_all_or_errors (output : List (Except ParserError StmtMeta)) :
    (∀ stmts, parseAst output = Except.ok stmts → output = stmts.map Except.ok) ∧
    (∀ errs, parseAst output = Except.error errs →
        errs = output.filterMap parseItemErr ∧ errs ≠ []) ∧
    (output.any parseItemIsErr = false →
        parseAst output = Except.ok (output.filterMap parseItemOk)) ∧
    (output.any parseItemIsErr = true →
        parseAst output = Except.error (output.filterMap parseItemErr)) := by
  refine ⟨?_, ?_, ?_, ?_⟩
  · intro stmts hok
    rcases h : output.any parseItemIsErr with _ | _
    · rw [parseAst, h] at hok
      simp at hok
      rw [← hok]
      exact parse_output_all_ok output h
    · rw [parseAst, h] at hok
      simp at hok
  · intro errs herr
    rcases h : output.any parseItemIsErr with _ | _
    · rw [parseAst, h] at herr
      simp at herr
    · rw [parseAst, h] at herr
      simp at herr
      exact ⟨herr.symm, herr ▸ parse_output_err_ne output h⟩
  · intro h
    rw [parseAst, h]
    simp
  · intro h
    rw [parseAst, h]
    simp

/-- Witness for C6: a pass with one good statement and one error yields
exactly the error list. -/
theorem parse_ast_all_or_errors_witness :
    parseAst [Except.ok ⟨Stmt.echo 1, none⟩, Except.error ⟨3⟩] =
      Except.error [⟨3⟩] :=
  (parse_ast_all_or_errors _).2.2.2 rfl

mutual

/-- can_hash is the negation of the claim's contains-a-float condition. -/
theorem canHash_eq_not_containsFloat (v : Variant) :
    canHash v = !containsFloat v := by
  cases v with
  | tuple items =>
    rw [canHash, containsFloat]
    exact canHashList_eq_not_containsFloatList items
  | nil => simp [canHash, containsFloat]
  | emptyTuple => simp [canHash, containsFloat]
  | boolTrue => simp [canHash, containsFloat]
  | boolFalse => simp [canHash, containsFloat]
  | integer n => simp [canHash, containsFloat]
  | float f => simp [canHash, containsFloat]
  | string s => simp [canHash, containsFloat]

/-- List version of canHash_eq_not_containsFloat. -/
theorem canHashList_eq_not_containsFloatList (l : List Variant) :
    canHashList l = !containsFloatList l := by
  cases l with
  | nil => simp [canHashList, containsFloatList]
  | cons v vs =>
    rw [canHashList, containsFloatList]
    rw [canHash_eq_not_containsFloat v, canHashList_eq_not_containsFloatList vs]
    simp

end

/-- C5: converting a runtime value to a VariantKey fails with an
UnhashableValue error exactly when the value is a float or a tuple that
transitively contains a float, and succeeds on every other value. -/
theorem variant_key_try_from_unhashable (v : Variant) :
    (variantKeyTryFrom v = Except.error (RuntimeErrorKind.unhashableValue v) ↔
        containsFloat v = true) ∧
    (containsFloat v = false → variantKeyTryFrom v = Except.ok v) := by
  by_cases hc : containsFloat v = true
  · rw [variantKeyTryFrom, canHash_eq_not_containsFloat, hc]
    simp [hc]
  · simp at hc
    rw [variantKeyTryFrom, canHash_eq_not_containsFloat, hc]
    simp [hc]

/-- Witness for C5: a tuple containing a float is rejected as unhashable;
a tuple of an integer and a string converts successfully; the atoms nil,
empty tuple, booleans, integers and strings convert successfully. -/
theorem variant_key_try_from_unhashable_witness :
    variantKeyTryFrom (Variant.tuple [Variant.float 0]) =
      Except.error (RuntimeErrorKind.unhashableValue (Variant.tuple [Variant.float 0])) ∧
    variantKeyTryFrom (Variant.tuple [Variant.integer 1, Variant.string 2]) =
      Except.ok (Variant.tuple [Variant.integer 1, Variant.string 2]) ∧
    variantKeyTryFrom Variant.nil = Except.ok Variant.nil ∧
    variantKeyTryFrom Variant.emptyTuple = Except.ok Variant.emptyTuple ∧
    variantKeyTryFrom Variant.boolTrue = Except.ok Variant.boolTrue ∧
    variantKeyTryFrom Variant.boolFalse = Except.ok Variant.boolFalse ∧
    variantKeyTryFrom (Variant.integer 5) = Except.ok (Variant.integer 5) ∧
    variantKeyTryFrom (Variant.string 3) = Except.ok (Variant.string 3) := by
  refine ⟨(variant_key_try_from_unhashable _).1.mpr ?_,
    (variant_key_try_from_unhashable _).2 ?_,
    (variant_key_try_from_unhashable _).2 ?_,
    (variant_key_try_from_unhashable _).2 ?_,
    (variant_key_try_from_unhashable _).2 ?_,
    (variant_key_try_from_unhashable _).2 ?_,
    (variant_key_try_from_unhashable _).2 ?_,
    (variant_key_try_from_unhashable _).2 ?_⟩
  all_goals simp [containsFloat, containsFloatList]

/-- Well-formedness of a ChunkBuilder's constant pool: every dedup entry
points at an equal constant in the pool, every pooled constant has a dedup
entry, and the pool never exceeds 2^16 entries. The initial builder
satisfies it and get_or_insert_const preserves it. -/
def ChunkBuilderWF (b : ChunkBuilder) : Prop :=
  (∀ p ∈ b.dedup, p.2 < b.consts.length ∧ b.consts.get? p.2 = some p.1) ∧
  (∀ c ∈ b.consts, dedupGet b.dedup c ≠ none) ∧
  b.consts.length ≤ 65536

/-- C4: on a well-formed builder, get_or_insert_const returns the id
previously assigned to a structurally equal constant and leaves the pool
unchanged when one exists; otherwise it appends the constant and returns
the fresh dense id equal to the previous pool length; it fails with the
ConstPoolLimit error exactly when the constant is new and the pool already
holds 2^16 constants; every returned id is below 2^16 and well-formedness
is preserved. -/
theorem get_or_insert_const_spec (b : ChunkBuilder) (v : Constant)
    (hwf : ChunkBuilderWF b) :
    (∀ cid, dedupGet b.dedup v = some cid →
        getOrInsertConst b v = Except.ok (cid, b) ∧ b.consts.get? cid = some v) ∧
    (dedupGet b.dedup v = none → b.consts.length < 65536 →
        getOrInsertConst b v =
          Except.ok (b.consts.length,
            { b with
                consts := b.consts ++ [v]
                dedup := b.dedup ++ [(v, b.consts.length)] })) ∧
    (getOrInsertConst b v = Except.error CompileErrorKind.constPoolLimit ↔
        dedupGet b.dedup v = none ∧ b.consts.length = 65536) ∧
    (∀ cid b', getOrInsertConst b v = Except.ok (cid, b') →
        cid < 65536 ∧ ChunkBuilderWF b') := by
  obtain ⟨hwf1, hwf2, hwf3⟩ := hwf
  refine ⟨?_, ?_, ?_, ?_⟩
  · intro cid hcid
    rw [getOrInsertConst, hcid]
    refine ⟨rfl, ?_⟩
    rw [dedupGet] at hcid
    rcases hfind : b.dedup.find? (fun p => p.1 = v) with _ | p
    · rw [hfind] at hcid; simp at hcid
    · rw [hfind] at hcid
      simp at hcid
      have hmem := List.mem_of_find?_eq_some hfind
      have hpv : p.1 = v := by
        have := List.find?_some hfind
        simpa using this
      have := (hwf1 p hmem).2
      rw [← hcid, ← hpv]
      exact this
  · intro hnone hlt
    rw [getOrInsertConst, hnone]
    simp [Nat.not_le_of_lt hlt]
  · constructor
    · intro herr
      rw [getOrInsertConst] at herr
      rcases hd : dedupGet b.dedup v with _ | cid
      · rw [hd] at herr
        by_cases hge : b.consts.length ≥ 65536
        · exact ⟨rfl, by omega⟩
        · rw [if_neg hge] at herr
          simp at herr
      · rw [hd] at herr
        simp at herr
    · rintro ⟨hnone, heq⟩
      rw [getOrInsertConst, hnone, if_pos (by omega)]
  · intro cid b' hok
    rw [getOrInsertConst] at hok
    rcases hd : dedupGet b.dedup v with _ | cid0
    · rw [hd] at hok
      by_cases hge : b.consts.length ≥ 65536
      · rw [if_pos hge] at hok; simp at hok
      · rw [if_neg hge] at hok
        simp at hok
        obtain ⟨hcid, hb'⟩ := hok
        subst hcid
        subst hb'
        refine ⟨by omega, ?_, ?_, ?_⟩
        · intro p hp
          rcases List.mem_append.mp hp with hold | hnew
          · have h1 := hwf1 p hold
            constructor
            · simp
              omega
            · rw [List.get?_append h1.1]
              exact h1.2
          · simp at hnew
            subst hnew
            constructor
            · simp
            · simpa using List.get?_concat_length b.consts v
        · intro c hc
          rcases List.mem_append.mp hc with hold | hnew
          · have h2 := hwf2 c hold
            rw [dedupGet] at h2 ⊢
            rcases hf : b.dedup.find? (fun p => p.1 = c) with _ | p
            · rw [hf] at h2
              simp at h2
            · rw [List.find?_append, hf]
              simp
          · simp at hnew
            subst hnew
            rw [dedupGet, List.find?_append]
            rcases hf : b.dedup.find? (fun p => p.1 = c) with _ | p
            · rw [hf]
              simp
            · rw [hf]
              simp
        · simp
          omega
    · rw [hd] at hok
      simp at hok
      obtain ⟨hcid, hb'⟩ := hok
      subst hcid
      subst hb'
      have : cid0 < b.consts.length := by
        rw [dedupGet] at hd
        rcases hf : b.dedup.find? (fun p => p.1 = v) with _ | p
        · rw [hf] at hd; simp at hd
        · rw [hf] at hd
          simp at hd
          have := (hwf1 p (List.mem_of_find?_eq_some hf)).1
          omega
      exact ⟨by omega, hwf1, hwf2, hwf3⟩

/-- Witness for C4: starting from the fresh builder (which is well-formed),
inserting the integer constant 5 twice yields the same id 0 without
growing the pool. -/
theorem get_or_insert_const_spec_witness :
    getOrInsertConst ⟨[⟨[], none⟩], [], [], [], []⟩ (Constant.integer 5) =
      Except.ok (0, ⟨[⟨[], none⟩], [Constant.integer 5], [],
        [(Constant.integer 5, 0)], []⟩) ∧
    getOrInsertConst ⟨[⟨[], none⟩], [Constant.integer 5], [],
        [(Constant.integer 5, 0)], []⟩ (Constant.integer 5) =
      Except.ok (0, ⟨[⟨[], none⟩], [Constant.integer 5], [],
        [(Constant.integer 5, 0)], []⟩) := by
  constructor
  · exact (get_or_insert_const_spec _ (Constant.integer 5)
      ⟨by simp, by simp, by simp⟩).2.1 (by simp [dedupGet]) (by simp)
  · exact ((get_or_insert_const_spec _ (Constant.integer 5)
      ⟨by simp [dedupGet], by simp [dedupGet], by simp⟩).1 0
      (by simp [dedupGet])).1

/-- C1: the claim says ChunkBuilder::build produces a string-descriptor
table with exactly one entry per build-local symbol. Because build resizes
the table to the interner length with default descriptors and then uses
Vec::insert (which shifts instead of overwriting), the table of a builder
with one interned string "a" has two entries: the real descriptor followed
by a left-over default (offset 0, length 0); loading then interns the
empty byte string into the global table as a second symbol. The intended
indexing still holds for genuine symbols: string(0) is "a" and the loaded
program's symbol 0 resolves to "a". -/
theorem chunk_build_string_table_doubled :
    (⟨[⟨[], none⟩], [], [], [], [[97]]⟩ : ChunkBuilder).strings.length = 1 ∧
    (⟨[⟨[], none⟩], [], [], [], [[97]]⟩ : ChunkBuilder).build.strings.length = 2 ∧
    (⟨[⟨[], none⟩], [], [], [], [[97]]⟩ : ChunkBuilder).build.strings =
      [⟨0, 1⟩, ⟨0, 0⟩] ∧
    (⟨[⟨[], none⟩], [], [], [], [[97]]⟩ : ChunkBuilder).build.string 0 = [97] ∧
    (programLoad [] (⟨[⟨[], none⟩], [], [], [], [[97]]⟩ : ChunkBuilder).build).1 =
      [[97], []] ∧
    (programLoad [] (⟨[⟨[], none⟩], [], [], [], [[97]]⟩ : ChunkBuilder).build).2.strings =
      [0, 1] ∧
    ([[97], []].get? 0 = some [97]) := by
  refine ⟨rfl, ?_, ?_, ?_, ?_, ?_, rfl⟩ <;>
    simp [ChunkBuilder.build, UnloadedProgram.string, programLoad,
      internGetOrIntern, vecInsert, List.enum, stringIndex_default]

theorem binSearchGo_some (entries : List SymbolTableEntry) (key : Nat) :
    ∀ n left right i, right - left ≤ n →
      binSearchGo entries key left right = some i →
      ∃ e, entries.get? i = some e ∧ e.1 = key := by
  intro n
  induction n with
  | zero =>
    intro left right i hle hbs
    rw [binSearchGo, dif_neg (by omega)] at hbs
    cases hbs
  | succ n ih =>
    intro left right i hle hbs
    rw [binSearchGo] at hbs
    split at hbs
    case isTrue hlr =>
      have hdiv := Nat.div_lt_self (by omega : 0 < right - left) (by norm_num : 1 < 2)
      split at hbs
      case h_1 => cases hbs
      case h_2 e hget =>
        split at hbs
        case isTrue h1 => exact ih _ _ i (by omega) hbs
        case isFalse h1 =>
          split at hbs
          case isTrue h2 => exact ih _ _ i (by omega) hbs
          case isFalse h2 =>
            cases hbs
            exact ⟨e, hget, by omega⟩
    case isFalse => cases hbs

theorem sorted_key_lt (entries : List SymbolTableEntry)
    (hs : List.Pairwise (fun a b => a < b) (entries.map Prod.fst))
    {i j : Nat} (hij : i < j) (hj : j < entries.length)
    {e f : SymbolTableEntry}
    (hei : entries.get? i = some e) (hfj : entries.get? j = some f) :
    e.1 < f.1 := by
  have hi : i < entries.length := by omega
  have h1 : entries[i] = e := by
    have h := hei
    rw [List.get?_eq_getElem?, List.getElem?_eq_some] at h
    exact h.2
  have h2 : entries[j] = f := by
    have h := hfj
    rw [List.get?_eq_getElem?, List.getElem?_eq_some] at h
    exact h.2
  have hp := List.pairwise_iff_getElem.mp hs i j
    (by simpa using hi) (by simpa using hj) hij
  simpa [List.getElem_map, h1, h2] using hp

theorem binSearchGo_finds (entries : List SymbolTableEntry) (key : Nat)
    (hs : List.Pairwise (fun a b => a < b) (entries.map Prod.fst)) :
    ∀ n left right j e, right - left ≤ n → right ≤ entries.length →
      left ≤ j → j < right → entries.get? j = some e → e.1 = key →
      ∃ i, binSearchGo entries key left right = some i := by
  intro n
  induction n with
  | zero =>
    intro left right j e hle _ hlj hjr _ _
    omega
  | succ n ih =>
    intro left right j e hle hrlen hlj hjr hget hkey
    have hlr : left < right := by omega
    rw [binSearchGo, dif_pos hlr]
    have hdiv := Nat.div_lt_self (by omega : 0 < right - left) (by norm_num : 1 < 2)
    have hmidlt : left + (right - left) / 2 < entries.length := by omega
    obtain ⟨em, hem⟩ : ∃ em, entries.get? (left + (right - left) / 2) = some em := by
      rcases hg : entries.get? (left + (right - left) / 2) with _ | em
      · rw [List.get?_eq_none] at hg
        omega
      · exact ⟨em, rfl⟩
    simp only [hem]
    by_cases h1 : em.1 < key
    · rw [if_pos h1]
      have hjmid : left + (right - left) / 2 < j := by
        by_contra hnot
        push_neg at hnot
        rcases Nat.lt_or_ge j (left + (right - left) / 2) with hlt | hge
        · have := sorted_key_lt entries hs hlt hmidlt hget hem
          omega
        · have hj : j = left + (right - left) / 2 := by omega
          rw [hj, hem] at hget
          cases hget
          omega
      exact ih _ _ j e (by omega) hrlen (by omega) hjr hget hkey
    · rw [if_neg h1]
      by_cases h2 : key < em.1
      · rw [if_pos h2]
        have hjmid : j < left + (right - left) / 2 := by
          by_contra hnot
          push_neg at hnot
          rcases Nat.lt_or_ge (left + (right - left) / 2) j with hlt | hge
          · have hjlen : j < entries.length := by omega
            have := sorted_key_lt entries hs hlt hjlen hem hget
            omega
          · have hj : j = left + (right - left) / 2 := by omega
            rw [hj, hem] at hget
            cases hget
            omega
        exact ih _ _ j e (by omega) (by omega) hlj hjmid hget hkey
      · rw [if_neg h2]
        exact ⟨_, rfl⟩

theorem sorted_mem_le_getLast (l : List Nat) :
    List.Pairwise (fun a b => a < b) l → ∀ x ∈ l, ∀ lastV,
      l.getLast? = some lastV → x ≤ lastV := by
  induction l with
  | nil => intro _ x hx; cases hx
  | cons a t ih =>
    intro hs x hx lastV hlast
    rcases t with _ | ⟨b, t'⟩
    · simp at hlast hx
      omega
    · rw [List.getLast?_cons_cons] at hlast
      have hpc := List.pairwise_cons.mp hs
      rcases List.mem_cons.mp hx with hxa | hxt
      · subst hxa
        have hmem : lastV ∈ b :: t' := List.mem_of_mem_getLast? hlast
        exact Nat.le_of_lt (hpc.1 lastV hmem)
      · exact ih hpc.2 x hxt lastV hlast

theorem insert_fold_sorted (xs : List SymbolTableEntry) :
    ∀ t u, List.foldlM (fun t (p : SymbolTableEntry) =>
        DebugSymbolTable.insert t p.1 p.2) t xs = Except.ok u →
      List.Pairwise (fun a b => a < b) (t.entries.map Prod.fst) →
      u.entries = t.entries ++ xs ∧
      List.Pairwise (fun a b => a < b) (u.entries.map Prod.fst) := by
  induction xs with
  | nil =>
    intro t u h hs
    rw [List.foldlM_nil] at h
    cases h
    simp [hs]
  | cons p rest ih =>
    intro t u h hs
    rw [List.foldlM_cons] at h
    rcases hins : DebugSymbolTable.insert t p.1 p.2 with msg | t1
    · rw [hins] at h
      simp [Bind.bind, Except.bind] at h
    · rw [hins] at h
      have h' : List.foldlM (fun t (p : SymbolTableEntry) =>
          DebugSymbolTable.insert t p.1 p.2) t1 rest = Except.ok u := by
        simpa [Bind.bind, Except.bind] using h
      have ht1 : t1.entries = t.entries ++ [p] ∧
          List.Pairwise (fun a b => a < b) (t1.entries.map Prod.fst) := by
        rw [DebugSymbolTable.insert] at hins
        rcases hlast : t.entries.getLast? with _ | lastE
        · simp only [hlast] at hins
          cases hins
          have : t.entries = [] := List.getLast?_eq_none_iff.mp hlast
          simp [this]
        · simp only [hlast] at hins
          split at hins
          case isTrue => cases hins
          case isFalse hgt =>
            cases hins
            refine ⟨rfl, ?_⟩
            rw [List.map_append, List.pairwise_append]
            refine ⟨hs, by simp, ?_⟩
            intro a ha b hb
            simp at hb
            subst hb
            have hlast' : (t.entries.map Prod.fst).getLast? = some lastE.1 := by
              rw [List.getLast?_map, hlast]
              rfl
            have := sorted_mem_le_getLast _ hs a ha lastE.1 hlast'
            omega
      obtain ⟨he1, hs1⟩ := ht1
      obtain ⟨he2, hs2⟩ := ih t1 u h' hs1
      refine ⟨?_, hs2⟩
      rw [he2, he1]
      simp

/-- C3: a sequence of successful inserts stores exactly the inserted
entries with strictly increasing bytecode offsets (an insert whose offset
is not strictly greater than the last stored offset panics instead), and
lookup(o) returns the symbol inserted with offset exactly o, or none when
no entry with offset o exists. -/
theorem debug_symbol_table_insert_lookup (inserts : List SymbolTableEntry)
    (t : DebugSymbolTable) (hok : insertAll inserts = Except.ok t) :
    t.entries = inserts ∧
    List.Pairwise (fun a b => a < b) (t.entries.map Prod.fst) ∧
    (∀ off sym, (off, sym) ∈ inserts → t.lookup off = sym) ∧
    (∀ off, off ∉ inserts.map Prod.fst → t.lookup off = none) ∧
    (∀ (u : DebugSymbolTable) (off : Nat) (sym : Option DebugSymbol),
        (∃ msg, u.insert off sym = Except.error msg) ↔
          (∃ lastE, u.entries.getLast? = some lastE ∧ off ≤ lastE.1)) := by
  rw [insertAll] at hok
  obtain ⟨hent, hsort⟩ := insert_fold_sorted inserts DebugSymbolTable.new t hok
    (by simp [DebugSymbolTable.new])
  rw [DebugSymbolTable.new] at hent
  simp at hent
  refine ⟨hent, hsort, ?_, ?_, ?_⟩
  · intro off sym hmem
    rw [← hent] at hmem
    obtain ⟨j, hj⟩ := List.mem_iff_get?.mp hmem
    have hjlen : j < t.entries.length := by
      have h := hj
      rw [List.get?_eq_getElem?, List.getElem?_eq_some] at h
      exact h.1
    obtain ⟨i, hi⟩ := binSearchGo_finds t.entries off hsort
      t.entries.length 0 t.entries.length j (off, sym)
      (by omega) (by omega) (by omega) hjlen hj rfl
    obtain ⟨e, hei, hekey⟩ := binSearchGo_some t.entries off
      t.entries.length 0 t.entries.length i (by omega) hi
    have hij : i = j := by
      rcases Nat.lt_trichotomy i j with hlt | heq | hgt
      · have := sorted_key_lt t.entries hsort hlt hjlen hei hj
        simp at this
        omega
      · exact heq
      · have hilen : i < t.entries.length := by
          have h := hei
          rw [List.get?_eq_getElem?, List.getElem?_eq_some] at h
          exact h.1
        have := sorted_key_lt t.entries hsort hgt hilen hj hei
        simp at this
        omega
    subst hij
    rw [hj] at hei
    cases hei
    rw [DebugSymbolTable.lookup, binSearch]
    simp only [hi]
    rw [List.getD_eq_get?, hj]
    rfl
  · intro off hnmem
    rw [DebugSymbolTable.lookup, binSearch]
    rcases hbs : binSearchGo t.entries off 0 t.entries.length with _ | i
    · rfl
    · obtain ⟨e, hei, hekey⟩ := binSearchGo_some t.entries off
        t.entries.length 0 t.entries.length i (by omega) hbs
      have hmem : e ∈ t.entries := List.get?_mem hei
      have : e.1 ∈ inserts.map Prod.fst := by
        rw [← hent]
        exact List.mem_map_of_mem Prod.fst hmem
      rw [hekey] at this
      exact absurd this hnmem
  · intro u off sym
    rw [DebugSymbolTable.insert]
    rcases hlast : u.entries.getLast? with _ | lastE
    · simp only [hlast]
      constructor
      · rintro ⟨msg, hmsg⟩
        cases hmsg
      · rintro ⟨lastE, hl, _⟩
        cases hl
    · simp only [hlast]
      by_cases hle : off ≤ lastE.1
      · rw [if_pos hle]
        exact ⟨fun _ => ⟨lastE, rfl, hle⟩, fun _ => ⟨"symbol inserted out of order", rfl⟩⟩
      · rw [if_neg hle]
        constructor
        · rintro ⟨msg, hmsg⟩
          cases hmsg
        · rintro ⟨lastE', hl', hle'⟩
          rw [Option.some.injEq] at hl'
          subst hl'
          exact absurd hle' hle

/-- Witness for C3: inserting offsets 0, 3, 7 succeeds and lookup(7)
returns the symbol inserted at offset 7. -/
theorem debug_symbol_table_insert_lookup_witness :
    insertAll [(0, some ⟨1, 2⟩), (3, none), (7, some ⟨4, 5⟩)] =
      Except.ok ⟨[(0, some ⟨1, 2⟩), (3, none), (7, some ⟨4, 5⟩)]⟩ ∧
    DebugSymbolTable.lookup ⟨[(0, some ⟨1, 2⟩), (3, none), (7, some ⟨4, 5⟩)]⟩ 7 =
      some ⟨4, 5⟩ := by
  refine ⟨rfl, ?_⟩
  exact (debug_symbol_table_insert_lookup
    [(0, some ⟨1, 2⟩), (3, none), (7, some ⟨4, 5⟩)] _ rfl).2.2.1 7 (some ⟨4, 5⟩)
    (by simp)
